import Mathlib

/-!
Verification of the `rockerfile-parser` crate: a shallow embedding of
`parser.rs`, `stage.rs` and `instruction.rs`, followed by theorems about
the behaviour of `parse_content` and the per-instruction parsing routines.

Strings are modelled as lists of characters.  The Rust code mixes byte
indices (`find`, slicing) and character indices (`chars().nth`); the two
coincide on ASCII text, and the embedding is uniformly character based.
-/

namespace Rocker

/-- Rust `&str` values are modelled as lists of characters. -/
abbrev Str := List Char

/-- ASCII fragment of Rust `char::is_whitespace`; the inputs the parser
manipulates only contain ASCII whitespace. -/
def isWS (c : Char) : Bool := c == ' ' || c == '\t' || c == '\n' || c == '\r'

/-- Rust `str::trim_start`. -/
def trimLeft (s : Str) : Str := s.dropWhile isWS

/-- Rust `str::trim_end`. -/
def trimRight (s : Str) : Str := (s.reverse.dropWhile isWS).reverse

/-- Rust `str::trim`. -/
def trim (s : Str) : Str := trimRight (trimLeft s)

/-- Rust `str::starts_with(c)` for a single character. -/
def charStartsWith (c : Char) (s : Str) : Bool := s.head? == some c

/-- Rust `str::ends_with(c)` for a single character. -/
def charEndsWith (c : Char) (s : Str) : Bool := s.getLast? == some c

/-- Rust `str::starts_with(pat)` for a string pattern (first argument). -/
def strStartsWith : Str → Str → Bool
  | [], _ => true
  | _ :: _, [] => false
  | p :: ps, c :: cs => p == c && strStartsWith ps cs

/-- Rust `str::splitn(2, c)` for a character separator: the text before the
first occurrence of `c`, and, when `c` occurs, the text after it. -/
def splitn2Char (c : Char) : Str → Str × Option Str
  | [] => ([], none)
  | a :: rest =>
    if a == c then ([], some rest)
    else
      let p := splitn2Char c rest
      (a :: p.1, p.2)

/-- Rust `str::rsplitn(2, c)`: the text after the last occurrence of `c`
first, then the text before it. -/
def rsplitn2Char (c : Char) (s : Str) : Str × Option Str :=
  let p := splitn2Char c s.reverse
  (p.1.reverse, p.2.map List.reverse)

/-- Rust `str::splitn(2, pat)` for a string pattern. -/
def splitn2Sub (pat : Str) : Str → Str × Option Str
  | [] => ([], none)
  | c :: rest =>
    if strStartsWith pat (c :: rest) then ([], some ((c :: rest).drop pat.length))
    else
      let p := splitn2Sub pat rest
      (c :: p.1, p.2)

/-- The collected parts of `splitn(2, pat)`, as successive `Iterator::next`
calls observe them: a list of one or two elements. -/
def splitn2SubList (pat s : Str) : List Str :=
  match splitn2Sub pat s with
  | (l, none) => [l]
  | (l, some r) => [l, r]

/-- Rust `str::find(c)`: character index of the first occurrence. -/
def strFind (c : Char) : Str → Option Nat
  | [] => none
  | a :: rest => if a == c then some 0 else (strFind c rest).map (· + 1)

/-- Rust `str::contains(c)`. -/
def strContains (c : Char) (s : Str) : Bool := s.any (fun x => x == c)

/-- Accumulator pass behind `splitWhitespace`; `cur` holds the current
token reversed. -/
def splitWSAux (cur : Str) : Str → List Str
  | [] => if cur.isEmpty then [] else [cur.reverse]
  | c :: rest =>
    if isWS c then
      if cur.isEmpty then splitWSAux [] rest
      else cur.reverse :: splitWSAux [] rest
    else splitWSAux (c :: cur) rest

/-- Rust `str::split_whitespace`: maximal runs of non-whitespace. -/
def splitWhitespace (s : Str) : List Str := splitWSAux [] s

/-- Numeric value of a digit string. -/
def digitsToNat (s : Str) : Nat := s.foldl (fun n c => n * 10 + (c.toNat - ('0').toNat)) 0

/-- Rust `str::parse::<u16>`: an optional leading plus sign, then one or
more ASCII digits, with the value bounded by `u16::MAX`; accumulation
overflow in Rust is equivalent to the final bound check here. -/
def parseU16 (s : Str) : Option Nat :=
  let t := match s with
    | '+' :: r => r
    | _ => s
  if !t.isEmpty && t.all Char.isDigit then
    if digitsToNat t ≤ 65535 then some (digitsToNat t) else none
  else none

/-- Backslash escapes of JSON strings (Unicode escapes are not modelled;
no instruction text in any claim uses them). -/
def jsonEsc : Char → Option Char
  | '"' => some '"'
  | '\\' => some '\\'
  | '/' => some '/'
  | 'b' => some (Char.ofNat 8)
  | 'f' => some (Char.ofNat 12)
  | 'n' => some '\n'
  | 'r' => some '\r'
  | 't' => some '\t'
  | _ => none

/-- Body of a JSON string after its opening quote: decoded content plus
the remainder after the closing quote.  Models the string decoder of
`serde_json`, which `parser.rs` calls through `serde_json::from_str`. -/
def jsonStr : Str → Option (Str × Str)
  | [] => none
  | '"' :: rest => some ([], rest)
  | '\\' :: e :: rest =>
    match jsonEsc e with
    | none => none
    | some c => (jsonStr rest).map (fun p => (c :: p.1, p.2))
  | c :: rest => (jsonStr rest).map (fun p => (c :: p.1, p.2))

/-- JSON whitespace. -/
def skipWS (s : Str) : Str := s.dropWhile (fun c => isWS c)

/-- Elements of a JSON array of strings, positioned after `[` or after a
comma; fueled, with one unit per element. -/
def jsonItems : Nat → Str → Option (List Str × Str)
  | 0, _ => none
  | fuel + 1, s =>
    match skipWS s with
    | '"' :: rest =>
      match jsonStr rest with
      | none => none
      | some (item, rest2) =>
        match skipWS rest2 with
        | ',' :: r => (jsonItems fuel r).map (fun p => (item :: p.1, p.2))
        | ']' :: r => some ([item], r)
        | _ => none
    | _ => none

/-- Model of `serde_json::from_str::<Vec<String>>`: a JSON array of
strings followed only by whitespace. -/
def jsonParseStrArr (s : Str) : Option (List Str) :=
  match skipWS s with
  | '[' :: rest =>
    match skipWS rest with
    | ']' :: r => if (skipWS r).isEmpty then some [] else none
    | _ =>
      match jsonItems (rest.length + 1) rest with
      | some (items, r) => if (skipWS r).isEmpty then some items else none
      | none => none
  | _ => none

/-- Rust `str::to_uppercase`, which agrees with per-character ASCII
uppercasing on the keyword tokens this parser compares against. -/
def upper (s : Str) : Str := s.map Char.toUpper

set_option maxHeartbeats 1600000 in
set_option synthInstance.maxHeartbeats 800000 in
/-- The `Instruction` enum of `instruction.rs`.  `HashMap<String, String>`
fields are modelled as association lists built by `hashMapInsert`. -/
inductive Instruction where
  | From (image : Str) (as_name : Option Str)
  | Run (command : Str)
  | Copy (sources : List Str) (destination : Str) (from_ : Option Str)
      (chown : Option Str) (chmod : Option Str)
  | Add (sources : List Str) (destination : Str) (chown : Option Str) (chmod : Option Str)
  | Workdir (path : Str)
  | Env (vars : List (Str × Str))
  | Arg (name : Str) (default_value : Option Str)
  | Expose (ports : List Nat) (protocol : Option Str)
  | Label (labels : List (Str × Str))
  | User (user : Str) (group : Option Str)
  | Volume (paths : List Str)
  | Cmd (command : List Str)
  | Entrypoint (command : List Str)
  | Healthcheck (command : List Str) (interval : Option Str) (timeout : Option Str)
      (retries : Option Nat) (start_period : Option Str)
  | Shell (shell : List Str)
  | StopSignal (signal : Str)
  | OnBuild (instruction : Instruction)
deriving DecidableEq

/-- `Instruction::is_from`. -/
def Instruction.is_from : Instruction → Bool
  | .From _ _ => true
  | _ => false

/-- Model of `HashMap::insert`: replace the value of an existing key in
place, otherwise append.  No claim observes the hash iteration order. -/
def hashMapInsert (m : List (Str × Str)) (k v : Str) : List (Str × Str) :=
  if m.any (fun p => p.1 == k) then
    m.map (fun p => if p.1 == k then (k, v) else p)
  else m ++ [(k, v)]

/-- The `RockerfileError` enum of `lib.rs`; payloads that are foreign
error values (`io::Error`, `serde_json::Error`) are modelled by the
text they were raised on. -/
inductive RockerfileError where
  | Io (msg : Str)
  | Parse (msg : Str)
  | InvalidInstruction (msg : Str)
  | MissingArgument (msg : Str)
  | Json (msg : Str)
  | FromNotFirst
  | UnknownInstruction (keyword : Str)
deriving DecidableEq

/-- The `Stage` struct of `stage.rs`. -/
structure Stage where
  name : Option Str
  base_image : Option Str
  instructions : List Instruction
deriving DecidableEq

/-- `Stage::new`. -/
def Stage.new (name : Option Str) : Stage :=
  { name := name, base_image := none, instructions := [] }

/-- `Stage::add_instruction`: a `From` instruction also records the base
image before being pushed. -/
def Stage.add_instruction (s : Stage) (i : Instruction) : Stage :=
  let s := match i with
    | .From image _ => { s with base_image := some image }
    | _ => s
  { s with instructions := s.instructions ++ [i] }

/-- In-place update of one list element, as `self.stages[i] = ...` and
`self.stages[i].add_instruction(...)` mutate the stage vector. -/
def listModify (f : α → α) : Nat → List α → List α
  | _, [] => []
  | 0, a :: rest => f a :: rest
  | n + 1, a :: rest => a :: listModify f n rest

/-- The `RockerfileParser` struct: the stage accumulator and the current
stage cursor. -/
structure RockerfileParser where
  stages : List Stage
  current_stage : Nat
deriving DecidableEq

/-- `RockerfileParser::new`. -/
def RockerfileParser.new : RockerfileParser :=
  { stages := [Stage.new none], current_stage := 0 }

/-- Read access `self.stages[self.current_stage]`; the cursor is always
in range in every reachable state. -/
def RockerfileParser.curStage (p : RockerfileParser) : Stage :=
  p.stages.getD p.current_stage (Stage.new none)

/-- Mutation of `self.stages[self.current_stage]`. -/
def RockerfileParser.modifyCur (p : RockerfileParser) (f : Stage → Stage) : RockerfileParser :=
  { p with stages := listModify f p.current_stage p.stages }

/-- `self.stages[self.current_stage].add_instruction(i)`. -/
def RockerfileParser.addIns (p : RockerfileParser) (i : Instruction) : RockerfileParser :=
  p.modifyCur (fun s => s.add_instruction i)

def kwFROM : Str := "FROM".toList
def kwRUN : Str := "RUN".toList
def kwCOPY : Str := "COPY".toList
def kwWORKDIR : Str := "WORKDIR".toList
def kwENV : Str := "ENV".toList
def kwEXPOSE : Str := "EXPOSE".toList
def kwVOLUME : Str := "VOLUME".toList
def kwCMD : Str := "CMD".toList
def kwENTRYPOINT : Str := "ENTRYPOINT".toList
def kwLABEL : Str := "LABEL".toList
def kwUSER : Str := "USER".toList
def kwARG : Str := "ARG".toList

def sepAS : Str := " AS ".toList
def ddOpt : Str := "--".toList
def optFROM : Str := "--from=".toList
def optCHOWN : Str := "--chown=".toList
def optCHMOD : Str := "--chmod=".toList

def msgInvalidFROM : Str := "Invalid FROM instruction".toList
def msgInvalidCOPY : Str := "Invalid COPY instruction".toList
def msgUnknownOpt : Str := "Unknown option: ".toList
def msgInvalidENV : Str := "Invalid ENV format".toList
def msgUntermENV : Str := "Unterminated quote in ENV".toList
def msgUntermLABEL : Str := "Unterminated quote in LABEL".toList
def msgInvalidPort : Str := "Invalid port: ".toList
def msgMixed : Str := "Mixed protocols in EXPOSE".toList
def msgInvalidLine : Str := "Invalid instruction".toList
def msgFuel : Str := "fuel".toList

/-- `RockerfileParser::parse_from`.  The source drains `splitn(2, " AS ")`
with two `next()` calls (image and stage name) and then calls `next()` a
third time for the instruction's `as_name`; the iterator yields at most
two items, so that third call — `parts.get? 2` here — is always `none`. -/
def parse_from (p : RockerfileParser) (args : Str) :
    Except RockerfileError RockerfileParser :=
  let parts := splitn2SubList sepAS args
  match parts.get? 0 with
  | none => .error (.InvalidInstruction msgInvalidFROM)
  | some first =>
    let image := trim first
    let stage_name := (parts.get? 1).map (fun s => trim s)
    let p :=
      if (p.curStage).instructions ≠ [] then
        let p2 := { p with stages := p.stages ++ [Stage.new stage_name] }
        { p2 with current_stage := p2.stages.length - 1 }
      else
        p.modifyCur (fun s => { s with name := stage_name })
    .ok (p.addIns (.From image ((parts.get? 2).map (fun s => trim s))))

/-- `RockerfileParser::parse_run`. -/
def parse_run (p : RockerfileParser) (args : Str) :
    Except RockerfileError RockerfileParser :=
  .ok (p.addIns (.Run args))

/-- Leading-option loop of `parse_copy`.  The loop consumes at least the
option token and its separator each iteration, so `parse_copy`'s fuel of
`args.length + 1` units never runs out. -/
def copyOptLoopF : Nat → Option Str → Option Str → Option Str → Str →
    Except RockerfileError (Option Str × Option Str × Option Str × Str)
  | 0, _, _, _, _ => .error (.InvalidInstruction msgFuel)
  | fuel + 1, from_, chown, chmod, copy_args =>
    if strStartsWith ddOpt copy_args then
      match splitn2Char ' ' copy_args with
      | (_, none) => .error (.InvalidInstruction msgInvalidCOPY)
      | (tok, some rest) =>
        let opt := trim tok
        if strStartsWith optFROM opt then
          copyOptLoopF fuel (some (opt.drop 7)) chown chmod (trim rest)
        else if strStartsWith optCHOWN opt then
          copyOptLoopF fuel from_ (some (opt.drop 8)) chmod (trim rest)
        else if strStartsWith optCHMOD opt then
          copyOptLoopF fuel from_ chown (some (opt.drop 8)) (trim rest)
        else .error (.InvalidInstruction (msgUnknownOpt ++ opt))
    else .ok (from_, chown, chmod, copy_args)

/-- `RockerfileParser::parse_copy`. -/
def parse_copy (p : RockerfileParser) (args : Str) :
    Except RockerfileError RockerfileParser :=
  match copyOptLoopF (args.length + 1) none none none args with
  | .error e => .error e
  | .ok (from_, chown, chmod, copy_args) =>
    match rsplitn2Char ' ' copy_args with
    | (_, none) => .error (.InvalidInstruction msgInvalidCOPY)
    | (destTok, some before) =>
      let dest := trim destTok
      let sources := splitWhitespace before
      .ok (p.addIns (.Copy sources dest from_ chown chmod))

/-- `RockerfileParser::parse_workdir`. -/
def parse_workdir (p : RockerfileParser) (args : Str) :
    Except RockerfileError RockerfileParser :=
  .ok (p.addIns (.Workdir args))

/-- Scan for the closing quote of a double-quoted value, starting after
the opening quote, honouring backslash escapes: the index of the closing
quote, or `none` when the text ends first. -/
def quoteScanAux : Bool → Str → Option Nat
  | _, [] => none
  | escaped, c :: rest =>
    if escaped then (quoteScanAux false rest).map (· + 1)
    else if c == '\\' then (quoteScanAux true rest).map (· + 1)
    else if c == '"' then some 0
    else (quoteScanAux false rest).map (· + 1)

/-- The `value_end` computation shared by `parse_env` and the `=` branch
of `parse_label`: one past the closing quote for a quoted value (`none`
for an unterminated quote), else the first space or the end of text. -/
def envValueEnd (remaining : Str) : Option Nat :=
  if charStartsWith '"' remaining then
    (quoteScanAux false (remaining.drop 1)).map (fun k => k + 2)
  else
    some ((strFind ' ' remaining).getD remaining.length)

/-- Quote stripping applied to a parsed value. -/
def stripQuotes (value : Str) : Str :=
  if charStartsWith '"' value && charEndsWith '"' value then (value.drop 1).dropLast
  else value

/-- The `KEY=VALUE` loop of `parse_env`; each iteration drops at least one
character of `remaining`, so fuel `args.length + 1` never runs out. -/
def envLoopF : Nat → List (Str × Str) → Str →
    Except RockerfileError (List (Str × Str))
  | 0, _, _ => .error (.Parse msgFuel)
  | fuel + 1, vars, remaining =>
    if remaining.isEmpty then .ok vars
    else
      match strFind '=' remaining with
      | none => .error (.InvalidInstruction msgInvalidENV)
      | some key_end =>
        let key := trim (remaining.take key_end)
        let rem2 := remaining.drop (key_end + 1)
        match envValueEnd rem2 with
        | none => .error (.InvalidInstruction msgUntermENV)
        | some value_end =>
          let value := stripQuotes (trim (rem2.take value_end))
          let vars := hashMapInsert vars key value
          if value_end < rem2.length then
            envLoopF fuel vars (trimLeft (rem2.drop value_end))
          else .ok vars

/-- `RockerfileParser::parse_env`. -/
def parse_env (p : RockerfileParser) (args : Str) :
    Except RockerfileError RockerfileParser :=
  if strContains '=' args then
    match envLoopF (args.length + 1) [] args with
    | .error e => .error e
    | .ok vars => .ok (p.addIns (.Env vars))
  else
    match splitn2Char ' ' args with
    | (k, some v) => .ok (p.addIns (.Env (hashMapInsert [] k v)))
    | (_, none) => .ok (p.addIns (.Env []))

/-- Port-token loop of `parse_expose`. -/
def exposeLoop (ports : List Nat) (protocol : Option Str) :
    List Str → Except RockerfileError (List Nat × Option Str)
  | [] => .ok (ports, protocol)
  | port_str :: rest =>
    match strFind '/' port_str with
    | some proto_idx =>
      let port_part := port_str.take proto_idx
      let proto_part := port_str.drop (proto_idx + 1)
      match parseU16 port_part with
      | none => .error (.InvalidInstruction (msgInvalidPort ++ port_part))
      | some port =>
        match protocol with
        | none => exposeLoop (ports ++ [port]) (some proto_part) rest
        | some pr =>
          if pr ≠ proto_part then .error (.InvalidInstruction msgMixed)
          else exposeLoop (ports ++ [port]) (some pr) rest
    | none =>
      match parseU16 port_str with
      | none => .error (.InvalidInstruction (msgInvalidPort ++ port_str))
      | some port => exposeLoop (ports ++ [port]) protocol rest

/-- `RockerfileParser::parse_expose`. -/
def parse_expose (p : RockerfileParser) (args : Str) :
    Except RockerfileError RockerfileParser :=
  match exposeLoop [] none (splitWhitespace args) with
  | .error e => .error e
  | .ok (ports, protocol) => .ok (p.addIns (.Expose ports protocol))

/-- `RockerfileParser::parse_volume`. -/
def parse_volume (p : RockerfileParser) (args : Str) :
    Except RockerfileError RockerfileParser :=
  if charStartsWith '[' args && charEndsWith ']' args then
    match jsonParseStrArr args with
    | none => .error (.Json args)
    | some json_volumes => .ok (p.addIns (.Volume json_volumes))
  else
    .ok (p.addIns (.Volume (splitWhitespace args)))

/-- `RockerfileParser::parse_cmd`. -/
def parse_cmd (p : RockerfileParser) (args : Str) :
    Except RockerfileError RockerfileParser :=
  if charStartsWith '[' args && charEndsWith ']' args then
    match jsonParseStrArr args with
    | none => .error (.Json args)
    | some json_cmd => .ok (p.addIns (.Cmd json_cmd))
  else
    .ok (p.addIns (.Cmd [args]))

/-- `RockerfileParser::parse_entrypoint`. -/
def parse_entrypoint (p : RockerfileParser) (args : Str) :
    Except RockerfileError RockerfileParser :=
  if charStartsWith '[' args && charEndsWith ']' args then
    match jsonParseStrArr args with
    | none => .error (.Json args)
    | some json_entrypoint => .ok (p.addIns (.Entrypoint json_entrypoint))
  else
    .ok (p.addIns (.Entrypoint [args]))

/-- The key/value loop of `parse_label`.  In the branch where `remaining`
contains neither `=` nor a space the Rust code slices
`remaining[key_end + 1 ..]` past the end and panics; the embedding
returns the state built so far instead, and no claim touches that case. -/
def labelLoopF : Nat → List (Str × Str) → Str →
    Except RockerfileError (List (Str × Str))
  | 0, _, _ => .error (.Parse msgFuel)
  | fuel + 1, labels, remaining =>
    if remaining.isEmpty then .ok labels
    else
      let key_end := (strFind '=' remaining).getD remaining.length
      let space_pos := (strFind ' ' remaining).getD remaining.length
      if space_pos < key_end then
        let key := trim (remaining.take space_pos)
        let rem2 := trimLeft (remaining.drop space_pos)
        let value_end := (strFind ' ' rem2).getD rem2.length
        let value := trim (rem2.take value_end)
        let labels := hashMapInsert labels key value
        if value_end < rem2.length then
          labelLoopF fuel labels (trimLeft (rem2.drop value_end))
        else .ok labels
      else
        let key := trim (remaining.take key_end)
        let rem2 := remaining.drop (key_end + 1)
        match envValueEnd rem2 with
        | none => .error (.InvalidInstruction msgUntermLABEL)
        | some value_end =>
          let value := stripQuotes (trim (rem2.take value_end))
          let labels := hashMapInsert labels key value
          if value_end < rem2.length then
            labelLoopF fuel labels (trimLeft (rem2.drop value_end))
          else .ok labels

/-- `RockerfileParser::parse_label`. -/
def parse_label (p : RockerfileParser) (args : Str) :
    Except RockerfileError RockerfileParser :=
  match labelLoopF (args.length + 1) [] args with
  | .error e => .error e
  | .ok labels => .ok (p.addIns (.Label labels))

/-- `RockerfileParser::parse_user`. -/
def parse_user (p : RockerfileParser) (args : Str) :
    Except RockerfileError RockerfileParser :=
  match strFind ':' args with
  | some colon_pos =>
    .ok (p.addIns (.User (args.take colon_pos) (some (args.drop (colon_pos + 1)))))
  | none => .ok (p.addIns (.User args none))

/-- `RockerfileParser::parse_arg`. -/
def parse_arg (p : RockerfileParser) (args : Str) :
    Except RockerfileError RockerfileParser :=
  match strFind '=' args with
  | some equals_pos =>
    .ok (p.addIns (.Arg (args.take equals_pos) (some (args.drop (equals_pos + 1)))))
  | none => .ok (p.addIns (.Arg args none))

/-- The keyword match of `parse_content`, in source order; an unknown
keyword reports the original (non-uppercased) token. -/
def dispatch (p : RockerfileParser) (instruction args : Str) :
    Except RockerfileError RockerfileParser :=
  let kw := upper instruction
  if kw = kwFROM then parse_from p args
  else if kw = kwRUN then parse_run p args
  else if kw = kwCOPY then parse_copy p args
  else if kw = kwWORKDIR then parse_workdir p args
  else if kw = kwENV then parse_env p args
  else if kw = kwEXPOSE then parse_expose p args
  else if kw = kwVOLUME then parse_volume p args
  else if kw = kwCMD then parse_cmd p args
  else if kw = kwENTRYPOINT then parse_entrypoint p args
  else if kw = kwLABEL then parse_label p args
  else if kw = kwUSER then parse_user p args
  else if kw = kwARG then parse_arg p args
  else .error (.UnknownInstruction instruction)

/-- Split text before the first newline from the text after it. -/
def breakNL : Str → Str × Option Str
  | [] => ([], none)
  | c :: rest =>
    if c == '\n' then ([], some rest)
    else
      let p := breakNL rest
      (c :: p.1, p.2)

/-- Strip one carriage return before a line ending. -/
def stripCR (s : Str) : Str := if s.getLast? == some '\r' then s.dropLast else s

/-- Segments of the text at newline characters. -/
def splitNL : Str → List Str
  | [] => [[]]
  | c :: rest =>
    if c == '\n' then [] :: splitNL rest
    else
      match splitNL rest with
      | [] => [[c]]
      | l :: ls => (c :: l) :: ls

/-- Rust `str::lines`: newline-terminated segments lose one trailing
carriage return; a final segment without a newline is kept verbatim; a
trailing newline produces no final empty line. -/
def rustLines (s : Str) : List Str :=
  let segs := splitNL s
  let init := segs.dropLast.map stripCR
  match segs.getLast? with
  | some [] => init
  | some l => init ++ [l]
  | none => init

/-- The line preprocessing of `parse_content`: trim each line, drop blank
lines and `#` comments. -/
def preprocess (content : Str) : List Str :=
  ((rustLines content).map trim).filter (fun l => !l.isEmpty && !charStartsWith '#' l)

/-- Assembly of logical `(keyword, arguments)` pairs from the retained
lines.  The source interleaves this with dispatching inside one `while`
loop; splitting it off is sound because the assembly never reads parser
state.  A pending pair whose arguments end in a backslash absorbs the next
line (backslash dropped, trimmed line appended) while one exists,
mirroring the inner `while full_args.ends_with('\\') && i + 1 < len`. -/
def logicalPairsAux : Option (Str × Str) → List Str → List (Str × Str)
  | none, [] => []
  | some pending, [] => [pending]
  | none, line :: rest =>
    let p := splitn2Char ' ' line
    logicalPairsAux (some (p.1, p.2.getD [])) rest
  | some (kw, args), line :: rest =>
    if charEndsWith '\\' args then
      logicalPairsAux (some (kw, args.dropLast ++ trim line)) rest
    else
      let p := splitn2Char ' ' line
      (kw, args) :: logicalPairsAux (some (p.1, p.2.getD [])) rest

/-- Logical instruction lines of the preprocessed input. -/
def logicalPairs (ls : List Str) : List (Str × Str) := logicalPairsAux none ls

/-- Fail-fast dispatch of the logical lines, threading the stage
accumulator. -/
def runPairs : RockerfileParser → List (Str × Str) →
    Except RockerfileError RockerfileParser
  | p, [] => .ok p
  | p, (kw, args) :: rest =>
    match dispatch p kw args with
    | .error e => .error e
    | .ok p2 => runPairs p2 rest

/-- `RockerfileParser::parse_content` on a fresh parser, as
`parse_rockerfile` invokes it: the finished stage sequence or the first
error. -/
def parse_content (content : Str) : Except RockerfileError (List Stage) :=
  match runPairs RockerfileParser.new (logicalPairs (preprocess content)) with
  | .error e => .error e
  | .ok p => .ok p.stages

deriving instance DecidableEq for Except

/-- The keyword set of the dispatch table, in source order. -/
def dispatchKws : List Str :=
  [kwFROM, kwRUN, kwCOPY, kwWORKDIR, kwENV, kwEXPOSE, kwVOLUME, kwCMD,
   kwENTRYPOINT, kwLABEL, kwUSER, kwARG]

lemma dispatch_unknown (p : RockerfileParser) (kw args : Str)
    (h : upper kw ∉ dispatchKws) :
    dispatch p kw args = .error (.UnknownInstruction kw) := by
  simp only [dispatchKws, List.mem_cons, List.not_mem_nil, or_false, not_or] at h
  obtain ⟨h1, h2, h3, h4, h5, h6, h7, h8, h9, h10, h11, h12⟩ := h
  simp [dispatch, h1, h2, h3, h4, h5, h6, h7, h8, h9, h10, h11, h12]

lemma logicalPairsAux_pending_head (kw args : Str) (ls : List Str) :
    ∃ args2 rest2, logicalPairsAux (some (kw, args)) ls = (kw, args2) :: rest2 := by
  induction ls generalizing args with
  | nil => exact ⟨args, [], rfl⟩
  | cons line rest ih =>
    by_cases hbs : charEndsWith '\\' args = true
    · simpa [logicalPairsAux, hbs] using ih (args.dropLast ++ trim line)
    · refine ⟨args, logicalPairsAux (some ((splitn2Char ' ' line).1,
        (splitn2Char ' ' line).2.getD [])) rest, ?_⟩
      simp [logicalPairsAux, hbs]

/-- C9: a logical line whose upper-cased first token lies outside the
dispatch keyword set makes the parse fail with `UnknownInstruction`
carrying that token; in particular the whole parse of `FOOBAR xyz` fails
with `UnknownInstruction("FOOBAR")`. -/
theorem C9_unknown_instruction :
    (∀ (p : RockerfileParser) (line : Str) (rest : List Str),
      upper (splitn2Char ' ' line).1 ∉ dispatchKws →
      runPairs p (logicalPairs (line :: rest)) =
        .error (.UnknownInstruction (splitn2Char ' ' line).1)) ∧
    parse_content ("FOOBAR xyz".toList) =
      .error (.UnknownInstruction ("FOOBAR".toList)) := by
  constructor
  · intro p line rest h
    obtain ⟨args2, rest2, heq⟩ :=
      logicalPairsAux_pending_head (splitn2Char ' ' line).1
        ((splitn2Char ' ' line).2.getD []) rest
    have hlp : logicalPairs (line :: rest) =
        logicalPairsAux (some ((splitn2Char ' ' line).1,
          (splitn2Char ' ' line).2.getD [])) rest := rfl
    rw [hlp, heq]
    simp [runPairs, dispatch_unknown p _ args2 h]
  · decide

/-- Closed instantiation of the universal part of `C9_unknown_instruction`
at the line `FOOBAR xyz` in the initial parser state. -/
theorem C9_witness :
    runPairs RockerfileParser.new (logicalPairs [("FOOBAR xyz".toList)]) =
      .error (.UnknownInstruction ("FOOBAR".toList)) :=
  C9_unknown_instruction.1 RockerfileParser.new ("FOOBAR xyz".toList) [] (by decide)

lemma splitn2SubList_get0 (pat s : Str) :
    (splitn2SubList pat s).get? 0 = some (splitn2Sub pat s).1 := by
  unfold splitn2SubList
  rcases splitn2Sub pat s with ⟨l, _ | r⟩ <;> rfl

/-- C4 (amended): `parse_from` never fails — `splitn(2, " AS ")` always
yields a first (possibly empty) part, so for every remainder, the empty
one included, it succeeds and returns a `From` instruction. -/
theorem C4_from_never_fails (p : RockerfileParser) (args : Str) :
    (parse_from p args).isOk = true := by
  simp only [parse_from, splitn2SubList_get0]
  rfl

/-- C4 counterexample: the claim predicts failure on an empty remainder,
but `parse_from` succeeds there (with an empty image). -/
theorem C4_counterexample : (parse_from RockerfileParser.new []).isOk = true := by
  decide

/-- C3: evaluation at the failing input `FROM alpine AS builder` — the
code stores the stage name `"builder"`, yet the emitted `From`
instruction has `as_name = none`, because `parse_from` reads the
exhausted `splitn(2, " AS ")` iterator a third time; the claim (and the
intent documented in `instruction.rs`) expects `Some("builder")`. -/
theorem C3_as_name_eval :
    parse_content ("FROM alpine AS builder".toList) =
      .ok [⟨some ("builder".toList), some ("alpine".toList),
            [.From ("alpine".toList) none]⟩] := by
  decide

/-- C6: `EXPOSE 80/tcp 443/tcp` parses to ports `[80, 443]` with protocol
`tcp`; `EXPOSE 80/tcp 443/udp` fails with the mixed-protocols error;
`EXPOSE 70000` fails with the invalid-port error. -/
theorem C6_expose :
    parse_content ("EXPOSE 80/tcp 443/tcp".toList) =
      .ok [⟨none, none, [.Expose [80, 443] (some ("tcp".toList))]⟩] ∧
    parse_content ("EXPOSE 80/tcp 443/udp".toList) =
      .error (.InvalidInstruction msgMixed) ∧
    parse_content ("EXPOSE 70000".toList) =
      .error (.InvalidInstruction (msgInvalidPort ++ ("70000".toList))) := by
  refine ⟨by decide, by decide, by decide⟩

/-- C7: `ENV A=1 B="two words" C=3` parses to the mapping
`A ↦ 1, B ↦ two words, C ↦ 3` (quotes stripped, inner spaces kept), and
`ENV A="unterminated` fails with the unterminated-quote error. -/
theorem C7_env :
    parse_content ("ENV A=1 B=\"two words\" C=3".toList) =
      .ok [⟨none, none,
            [.Env [(("A".toList), ("1".toList)),
                   (("B".toList), ("two words".toList)),
                   (("C".toList), ("3".toList))]]⟩] ∧
    parse_content ("ENV A=\"unterminated".toList) =
      .error (.InvalidInstruction msgUntermENV) := by
  refine ⟨by decide, by decide⟩

/-- C8: the JSON-array form `CMD ["echo","hi"]` yields the two-element
command, while every remainder that is not bracket-delimited yields the
single-element command holding the remainder verbatim — in particular
`CMD echo hi` yields `["echo hi"]`, never split on whitespace. -/
theorem C8_cmd :
    parse_content ("CMD [\"echo\",\"hi\"]".toList) =
      .ok [⟨none, none, [.Cmd [("echo".toList), ("hi".toList)]]⟩] ∧
    (∀ (p : RockerfileParser) (args : Str),
      (charStartsWith '[' args && charEndsWith ']' args) = false →
      parse_cmd p args = .ok (p.addIns (.Cmd [args]))) ∧
    parse_content ("CMD echo hi".toList) =
      .ok [⟨none, none, [.Cmd [("echo hi".toList)]]⟩] := by
  refine ⟨by decide, ?_, by decide⟩
  intro p args h
  simp [parse_cmd, h]

/-- Closed instantiation of the universal part of `C8_cmd` at the
non-bracketed remainder `echo hi`. -/
theorem C8_witness :
    parse_cmd RockerfileParser.new ("echo hi".toList) =
      .ok (RockerfileParser.new.addIns (.Cmd [("echo hi".toList)])) :=
  C8_cmd.2.1 RockerfileParser.new ("echo hi".toList) (by decide)

lemma listModify_length (f : α → α) (i : Nat) (l : List α) :
    (listModify f i l).length = l.length := by
  induction l generalizing i with
  | nil => cases i <;> rfl
  | cons a rest ih => cases i <;> simp [listModify, ih]

lemma listModify_ge (f : α → α) (i : Nat) (l : List α) (h : l.length ≤ i) :
    listModify f i l = l := by
  induction l generalizing i with
  | nil => cases i <;> rfl
  | cons a rest ih =>
    cases i with
    | zero => simp at h
    | succ n => simp [listModify, ih n (by simpa using h)]

lemma listModify_ne_nil (f : α → α) (i : Nat) (l : List α) (h : l ≠ []) :
    listModify f i l ≠ [] := by
  intro hc
  apply h
  have := listModify_length f i l
  rw [hc] at this
  exact List.length_eq_zero.mp this.symm

lemma mem_listModify_lt (f : α → α) (i : Nat) (l : List α) (hlt : i < l.length)
    (x : α) (hx : x ∈ listModify f i l) : x ∈ l ∨ x = f (l.get ⟨i, hlt⟩) := by
  induction l generalizing i with
  | nil => simp at hlt
  | cons a rest ih =>
    cases i with
    | zero =>
      simp only [listModify, List.mem_cons] at hx
      rcases hx with h | h
      · exact Or.inr h
      · exact Or.inl (List.mem_cons_of_mem a h)
    | succ n =>
      simp only [listModify, List.mem_cons] at hx
      rcases hx with h | h
      · exact Or.inl (h ▸ List.mem_cons_self a rest)
      · rcases ih n (by simpa using hlt) h with h' | h'
        · exact Or.inl (List.mem_cons_of_mem a h')
        · exact Or.inr (by simpa using h')

lemma listModify_listModify (f g : α → α) (i : Nat) (l : List α) :
    listModify f i (listModify g i l) = listModify (fun x => f (g x)) i l := by
  induction l generalizing i with
  | nil => cases i <;> rfl
  | cons a rest ih => cases i <;> simp [listModify, ih]

lemma listModify_append_length (f : α → α) (l : List α) (x : α) :
    listModify f l.length (l ++ [x]) = l ++ [f x] := by
  induction l with
  | nil => rfl
  | cons a rest ih => simp [listModify, ih]

lemma getD_lt (l : List α) (i : Nat) (d : α) (h : i < l.length) :
    l.getD i d = l.get ⟨i, h⟩ := by
  induction l generalizing i with
  | nil => simp at h
  | cons a rest ih =>
    cases i with
    | zero => rfl
    | succ n => exact ih n (by simpa using h)

lemma add_instruction_instructions (s : Stage) (i : Instruction) :
    (s.add_instruction i).instructions = s.instructions ++ [i] := by
  cases i <;> rfl

lemma add_instruction_base (s : Stage) (i : Instruction) (h : i.is_from = false) :
    (s.add_instruction i).base_image = s.base_image := by
  cases i <;> first | rfl | simp [Instruction.is_from] at h

/-- Per-stage shape established by the stage graph builder: a `From` at
the head determines `base_image` and carries `as_name = none`, and no
`From` ever occurs past the head. -/
def stageOk (st : Stage) : Prop :=
  (∀ im an, st.instructions.head? = some (.From im an) →
    st.base_image = some im ∧ an = none) ∧
  (∀ ins ∈ st.instructions.drop 1, ins.is_from = false)

/-- Parser-state invariant: the stage list is never empty and each stage
satisfies `stageOk`. -/
def invP (p : RockerfileParser) : Prop :=
  p.stages ≠ [] ∧ ∀ st ∈ p.stages, stageOk st

lemma stageOk_add_nonFrom (st : Stage) (ins : Instruction)
    (h : ins.is_from = false) (hst : stageOk st) :
    stageOk (st.add_instruction ins) := by
  obtain ⟨h1, h2⟩ := hst
  constructor
  · intro im an hh
    rw [add_instruction_instructions] at hh
    cases hi : st.instructions with
    | nil =>
      rw [hi] at hh
      simp only [List.nil_append, List.head?_cons, Option.some.injEq] at hh
      rw [hh] at h
      simp [Instruction.is_from] at h
    | cons a t =>
      rw [hi] at hh
      simp only [List.cons_append, List.head?_cons, Option.some.injEq] at hh
      rw [add_instruction_base st ins h]
      exact h1 im an (by rw [hi, List.head?_cons, hh])
  · intro x hx
    rw [add_instruction_instructions] at hx
    cases hi : st.instructions with
    | nil => rw [hi] at hx; simp at hx
    | cons a t =>
      rw [hi] at hx
      simp only [List.cons_append, List.drop_succ_cons, List.drop_zero] at hx
      rcases List.mem_append.mp hx with hx' | hx'
      · exact h2 x (by rw [hi]; simpa using hx')
      · rw [List.mem_singleton.mp hx']; exact h

lemma invP_addIns (p : RockerfileParser) (ins : Instruction)
    (hins : ins.is_from = false) (hp : invP p) : invP (p.addIns ins) := by
  obtain ⟨hne, hall⟩ := hp
  constructor
  · exact listModify_ne_nil _ _ _ hne
  · intro st hst
    by_cases hlt : p.current_stage < p.stages.length
    · rcases mem_listModify_lt _ _ _ hlt st hst with h | h
      · exact hall st h
      · rw [h]
        exact stageOk_add_nonFrom _ ins hins (hall _ (List.get_mem _ _ _))
    · rw [RockerfileParser.addIns, RockerfileParser.modifyCur,
        listModify_ge _ _ _ (by omega)] at hst
      exact hall st hst

lemma parse_run_ok {p p2 : RockerfileParser} {a : Str}
    (h : parse_run p a = .ok p2) :
    ∃ ins, ins.is_from = false ∧ p2 = p.addIns ins := by
  simp only [parse_run, Except.ok.injEq] at h
  subst h
  refine ⟨_, ?_, rfl⟩
  rfl

lemma parse_workdir_ok {p p2 : RockerfileParser} {a : Str}
    (h : parse_workdir p a = .ok p2) :
    ∃ ins, ins.is_from = false ∧ p2 = p.addIns ins := by
  simp only [parse_workdir, Except.ok.injEq] at h
  subst h
  refine ⟨_, ?_, rfl⟩
  rfl

lemma parse_copy_ok {p p2 : RockerfileParser} {a : Str}
    (h : parse_copy p a = .ok p2) :
    ∃ ins, ins.is_from = false ∧ p2 = p.addIns ins := by
  unfold parse_copy at h
  repeat' split at h
  all_goals first
    | (simp only [Except.ok.injEq] at h; subst h; refine ⟨_, ?_, rfl⟩; rfl)
    | simp at h

lemma parse_env_ok {p p2 : RockerfileParser} {a : Str}
    (h : parse_env p a = .ok p2) :
    ∃ ins, ins.is_from = false ∧ p2 = p.addIns ins := by
  unfold parse_env at h
  repeat' split at h
  all_goals first
    | (simp only [Except.ok.injEq] at h; subst h; refine ⟨_, ?_, rfl⟩; rfl)
    | simp at h

lemma parse_expose_ok {p p2 : RockerfileParser} {a : Str}
    (h : parse_expose p a = .ok p2) :
    ∃ ins, ins.is_from = false ∧ p2 = p.addIns ins := by
  unfold parse_expose at h
  repeat' split at h
  all_goals first
    | (simp only [Except.ok.injEq] at h; subst h; refine ⟨_, ?_, rfl⟩; rfl)
    | simp at h

lemma parse_volume_ok {p p2 : RockerfileParser} {a : Str}
    (h : parse_volume p a = .ok p2) :
    ∃ ins, ins.is_from = false ∧ p2 = p.addIns ins := by
  unfold parse_volume at h
  repeat' split at h
  all_goals first
    | (simp only [Except.ok.injEq] at h; subst h; refine ⟨_, ?_, rfl⟩; rfl)
    | simp at h

lemma parse_cmd_ok {p p2 : RockerfileParser} {a : Str}
    (h : parse_cmd p a = .ok p2) :
    ∃ ins, ins.is_from = false ∧ p2 = p.addIns ins := by
  unfold parse_cmd at h
  repeat' split at h
  all_goals first
    | (simp only [Except.ok.injEq] at h; subst h; refine ⟨_, ?_, rfl⟩; rfl)
    | simp at h

lemma parse_entrypoint_ok {p p2 : RockerfileParser} {a : Str}
    (h : parse_entrypoint p a = .ok p2) :
    ∃ ins, ins.is_from = false ∧ p2 = p.addIns ins := by
  unfold parse_entrypoint at h
  repeat' split at h
  all_goals first
    | (simp only [Except.ok.injEq] at h; subst h; refine ⟨_, ?_, rfl⟩; rfl)
    | simp at h

lemma parse_label_ok {p p2 : RockerfileParser} {a : Str}
    (h : parse_label p a = .ok p2) :
    ∃ ins, ins.is_from = false ∧ p2 = p.addIns ins := by
  unfold parse_label at h
  repeat' split at h
  all_goals first
    | (simp only [Except.ok.injEq] at h; subst h; refine ⟨_, ?_, rfl⟩; rfl)
    | simp at h

lemma parse_user_ok {p p2 : RockerfileParser} {a : Str}
    (h : parse_user p a = .ok p2) :
    ∃ ins, ins.is_from = false ∧ p2 = p.addIns ins := by
  unfold parse_user at h
  repeat' split at h
  all_goals first
    | (simp only [Except.ok.injEq] at h; subst h; refine ⟨_, ?_, rfl⟩; rfl)
    | simp at h

lemma parse_arg_ok {p p2 : RockerfileParser} {a : Str}
    (h : parse_arg p a = .ok p2) :
    ∃ ins, ins.is_from = false ∧ p2 = p.addIns ins := by
  unfold parse_arg at h
  repeat' split at h
  all_goals first
    | (simp only [Except.ok.injEq] at h; subst h; refine ⟨_, ?_, rfl⟩; rfl)
    | simp at h

set_option maxHeartbeats 1600000 in
lemma dispatch_ok_shape {p p2 : RockerfileParser} {kw args : Str}
    (hkw : upper kw ≠ kwFROM) (h : dispatch p kw args = .ok p2) :
    ∃ ins, ins.is_from = false ∧ p2 = p.addIns ins := by
  unfold dispatch at h
  rw [if_neg hkw] at h
  split_ifs at h
  all_goals first
    | exact parse_run_ok h
    | exact parse_copy_ok h
    | exact parse_workdir_ok h
    | exact parse_env_ok h
    | exact parse_expose_ok h
    | exact parse_volume_ok h
    | exact parse_cmd_ok h
    | exact parse_entrypoint_ok h
    | exact parse_label_ok h
    | exact parse_user_ok h
    | exact parse_arg_ok h
    | simp at h

/-- The image `parse_from` extracts from the remainder. -/
def fromImage (args : Str) : Str := trim (splitn2Sub sepAS args).1

/-- The stage name `parse_from` extracts from the remainder. -/
def stageNameOf (args : Str) : Option Str :=
  ((splitn2SubList sepAS args).get? 1).map (fun s => trim s)

lemma splitn2SubList_get2 (pat s : Str) :
    (splitn2SubList pat s).get? 2 = none := by
  unfold splitn2SubList
  rcases splitn2Sub pat s with ⟨l, _ | r⟩ <;> rfl

lemma parse_from_ok {p p2 : RockerfileParser} {a : Str}
    (h : parse_from p a = .ok p2) :
    p2 = (if p.curStage.instructions ≠ [] then
        { stages := p.stages ++ [Stage.new (stageNameOf a)],
          current_stage := (p.stages ++ [Stage.new (stageNameOf a)]).length - 1 }
      else p.modifyCur (fun s => { s with name := stageNameOf a })).addIns
        (.From (fromImage a) none) := by
  unfold parse_from at h
  simp only [splitn2SubList_get0, splitn2SubList_get2, Option.map_none'] at h
  simp only [Except.ok.injEq] at h
  rw [← h]
  rfl

lemma invP_parse_from {p p2 : RockerfileParser} {a : Str}
    (h : parse_from p a = .ok p2) (hp : invP p) : invP p2 := by
  obtain ⟨hne, hall⟩ := hp
  have hfreshOk : stageOk ((Stage.new (stageNameOf a)).add_instruction
      (.From (fromImage a) none)) := by
    constructor
    · intro im an hh
      simp only [Stage.new, Stage.add_instruction, List.nil_append, List.head?_cons,
        Option.some.injEq] at hh
      cases hh
      exact ⟨rfl, rfl⟩
    · intro x hx
      simp [Stage.new, Stage.add_instruction] at hx
  rw [parse_from_ok h]
  by_cases hc : p.curStage.instructions ≠ []
  · rw [if_pos hc]
    constructor
    · apply listModify_ne_nil
      simp
    · intro st hst
      simp only [RockerfileParser.addIns, RockerfileParser.modifyCur] at hst
      have hlen : (p.stages ++ [Stage.new (stageNameOf a)]).length - 1 = p.stages.length := by
        simp
      rw [hlen, listModify_append_length] at hst
      rcases List.mem_append.mp hst with h' | h'
      · exact hall st h'
      · rw [List.mem_singleton.mp h']
        exact hfreshOk
  · rw [if_neg hc]
    push_neg at hc
    constructor
    · exact listModify_ne_nil _ _ _ (by
        apply listModify_ne_nil _ _ _ hne)
    · intro st hst
      simp only [RockerfileParser.addIns, RockerfileParser.modifyCur] at hst
      rw [listModify_listModify] at hst
      by_cases hlt : p.current_stage < p.stages.length
      · rcases mem_listModify_lt _ _ _ hlt st hst with h' | h'
        · exact hall st h'
        · have hget : p.stages.get ⟨p.current_stage, hlt⟩ = p.curStage := by
            rw [RockerfileParser.curStage, getD_lt _ _ _ hlt]
          rw [h', hget]
          have hinstr : p.curStage.instructions = [] := hc
          constructor
          · intro im an hh
            simp only [Stage.add_instruction, hinstr, List.nil_append, List.head?_cons,
              Option.some.injEq] at hh
            cases hh
            exact ⟨rfl, rfl⟩
          · intro x hx
            simp [Stage.add_instruction, hinstr] at hx
      · rw [listModify_ge _ _ _ (by omega)] at hst
        exact hall st hst

lemma invP_runPairs {pairs : List (Str × Str)} {p p2 : RockerfileParser}
    (h : runPairs p pairs = .ok p2) (hp : invP p) : invP p2 := by
  induction pairs generalizing p with
  | nil =>
    simp only [runPairs, Except.ok.injEq] at h
    rwa [← h]
  | cons pr rest ih =>
    rcases pr with ⟨kw, args⟩
    unfold runPairs at h
    rcases hd : dispatch p kw args with e | pm <;> rw [hd] at h
    · simp at h
    · have hpm : invP pm := by
        by_cases hkw : upper kw = kwFROM
        · have hfrom : parse_from p args = .ok pm := by
            unfold dispatch at hd
            rwa [if_pos hkw] at hd
          exact invP_parse_from hfrom hp
        · obtain ⟨ins, hins, rfl⟩ := dispatch_ok_shape hkw hd
          exact invP_addIns p ins hins hp
      exact ih h hpm

lemma parse_content_ok {content : Str} {stages : List Stage}
    (h : parse_content content = .ok stages) :
    ∃ p2, runPairs RockerfileParser.new (logicalPairs (preprocess content)) = .ok p2 ∧
      stages = p2.stages := by
  unfold parse_content at h
  rcases hr : runPairs RockerfileParser.new (logicalPairs (preprocess content))
    with e | p2 <;> rw [hr] at h
  · simp at h
  · simp only [Except.ok.injEq] at h
    exact ⟨p2, rfl, h.symm⟩

lemma invP_new : invP RockerfileParser.new := by
  constructor
  · simp [RockerfileParser.new]
  · intro st hst
    simp only [RockerfileParser.new, List.mem_singleton] at hst
    subst hst
    constructor
    · intro im an hh
      simp [Stage.new] at hh
    · intro x hx
      simp [Stage.new] at hx

lemma parse_content_invP {content : Str} {stages : List Stage}
    (h : parse_content content = .ok stages) :
    stages ≠ [] ∧ ∀ st ∈ stages, stageOk st := by
  obtain ⟨p2, hrun, rfl⟩ := parse_content_ok h
  exact invP_runPairs hrun invP_new

/-- C2 (amended): for every stage of a successful parse whose
instructions list is non-empty and begins with a `From` instruction, the
stage's `base_image` equals that `From`'s `image` field; the `From`'s
`as_name` field is always `none` — the AS-clause name is recorded only in
the stage's `name` field, so `name` need not equal `as_name`, and the
bootstrap stage may begin with a non-`From` instruction. -/
theorem C2_head_from_invariant (content : Str) (stages : List Stage)
    (hok : parse_content content = .ok stages) :
    ∀ st ∈ stages, ∀ im an, st.instructions.head? = some (.From im an) →
      st.base_image = some im ∧ an = none := by
  intro st hst im an hh
  exact ((parse_content_invP hok).2 st hst).1 im an hh

/-- C2 counterexample: on `FROM alpine AS builder` the produced stage has
a `From` head whose `as_name` is `none` while the stage's `name` is
`Some "builder"`, so the claimed equality of `name` and `as_name` fails
as stated. -/
theorem C2_counterexample :
    parse_content ("FROM alpine AS builder".toList) =
      .ok [⟨some ("builder".toList), some ("alpine".toList),
            [.From ("alpine".toList) none]⟩] ∧
    (some ("builder".toList) : Option Str) ≠ none :=
  ⟨by decide, by decide⟩

/-- Closed instantiation of `C2_head_from_invariant` on the parse of
`FROM a`. -/
theorem C2_witness :
    (⟨none, some ("a".toList), [Instruction.From ("a".toList) none]⟩ : Stage).base_image =
      some ("a".toList) ∧ (none : Option Str) = none :=
  C2_head_from_invariant ("FROM a".toList)
    [⟨none, some ("a".toList), [.From ("a".toList) none]⟩] (by decide)
    _ (by simp) ("a".toList) none (by decide)

/-- C10: after every successful parse there is at least one stage, every
stage holds at most one `From` instruction, and any `From` a stage holds
sits at index 0 of its instruction list; index 0 may instead hold a
non-`From` instruction, as the parse of `RUN x` (no `FROM` at all)
shows. -/
theorem C10_stage_invariants :
    (∀ (content : Str) (stages : List Stage),
      parse_content content = .ok stages →
      stages ≠ [] ∧ ∀ st ∈ stages,
        (st.instructions.filter (fun i => i.is_from)).length ≤ 1 ∧
        ∀ i ins, st.instructions.get? i = some ins → ins.is_from = true → i = 0) ∧
    parse_content ("RUN x".toList) =
      .ok [⟨none, none, [.Run ("x".toList)]⟩] := by
  constructor
  · intro content stages hok
    obtain ⟨hne, hall⟩ := parse_content_invP hok
    refine ⟨hne, ?_⟩
    intro st hst
    obtain ⟨_, h2⟩ := hall st hst
    constructor
    · cases hl : st.instructions with
      | nil => simp
      | cons a t =>
        have ht : t.filter (fun i => i.is_from) = [] := by
          refine List.filter_eq_nil_iff.mpr ?_
          intro x hx
          have hx' := h2 x (by rw [hl]; simpa using hx)
          simp [hx']
        rw [List.filter_cons, ht]
        split <;> simp
    · intro i ins hget hfrom
      cases i with
      | zero => rfl
      | succ j =>
        exfalso
        cases hl : st.instructions with
        | nil => rw [hl] at hget; simp at hget
        | cons a t =>
          rw [hl] at hget
          simp only [List.get?_cons_succ] at hget
          have hmem : ins ∈ t := List.get?_mem hget
          have hx' := h2 ins (by rw [hl]; simpa using hmem)
          rw [hfrom] at hx'
          cases hx'
  · decide

/-- Test whether a logical pair dispatches to the FROM parser. -/
def isFROMpair (pr : Str × Str) : Bool := upper pr.1 == kwFROM

/-- Number of FROM logical lines. -/
def countFROM (pairs : List (Str × Str)) : Nat := (pairs.filter isFROMpair).length

/-- Images of the FROM logical lines, in input order. -/
def fromImages (pairs : List (Str × Str)) : List Str :=
  (pairs.filter isFROMpair).map (fun pr => fromImage pr.2)

lemma listModify_get?_self (f : α → α) (i : Nat) (l : List α) :
    (listModify f i l).get? i = (l.get? i).map f := by
  induction l generalizing i with
  | nil => cases i <;> rfl
  | cons a rest ih =>
    cases i with
    | zero => rfl
    | succ n =>
      have hstep : listModify f (n + 1) (a :: rest) = a :: listModify f n rest := rfl
      rw [hstep]
      simpa using ih n

lemma map_listModify (g : α → β) (f : α → α) (i : Nat) (l : List α)
    (h : ∀ x, g (f x) = g x) : (listModify f i l).map g = l.map g := by
  induction l generalizing i with
  | nil => cases i <;> rfl
  | cons a rest ih => cases i <;> simp [listModify, ih, h]

lemma parse_from_push {p pm : RockerfileParser} {a : Str}
    (h : parse_from p a = .ok pm) (hc : p.curStage.instructions ≠ []) :
    pm.stages = p.stages ++
      [(Stage.new (stageNameOf a)).add_instruction (.From (fromImage a) none)] ∧
    pm.current_stage = p.stages.length := by
  rw [parse_from_ok h, if_pos hc]
  constructor
  · simp only [RockerfileParser.addIns, RockerfileParser.modifyCur]
    have hlen : (p.stages ++ [Stage.new (stageNameOf a)]).length - 1 = p.stages.length := by
      simp
    rw [hlen, listModify_append_length]
  · simp [RockerfileParser.addIns, RockerfileParser.modifyCur]

lemma countFROM_cons (pr : Str × Str) (rest : List (Str × Str)) :
    countFROM (pr :: rest) =
      (if isFROMpair pr then 1 else 0) + countFROM rest := by
  unfold countFROM
  rw [List.filter_cons]
  split <;> simp [Nat.add_comm]

lemma fromImages_cons (pr : Str × Str) (rest : List (Str × Str)) :
    fromImages (pr :: rest) =
      (if isFROMpair pr then [fromImage pr.2] else []) ++ fromImages rest := by
  unfold fromImages
  rw [List.filter_cons]
  split <;> simp

/-- Stage-count induction: from a state whose cursor points at the last
stage and whose last stage already holds an instruction, each FROM
logical line appends exactly one stage (whose base image is that line's
image) and every other line leaves the stage list's length and base
images unchanged. -/
lemma runPairs_stage_count {pairs : List (Str × Str)} {p p2 : RockerfileParser}
    (h : runPairs p pairs = .ok p2)
    (hcur : p.current_stage + 1 = p.stages.length)
    (hlast : ∀ st, p.stages.get? p.current_stage = some st → st.instructions ≠ []) :
    p2.stages.length = p.stages.length + countFROM pairs ∧
    p2.stages.map (fun st => st.base_image) =
      p.stages.map (fun st => st.base_image) ++ (fromImages pairs).map some := by
  induction pairs generalizing p with
  | nil =>
    simp only [runPairs, Except.ok.injEq] at h
    subst h
    simp [countFROM, fromImages]
  | cons pr rest ih =>
    rcases pr with ⟨kw, args⟩
    unfold runPairs at h
    rcases hd : dispatch p kw args with e | pm <;> rw [hd] at h
    · simp at h
    · by_cases hkw : upper kw = kwFROM
      · have hfrom : parse_from p args = .ok pm := by
          unfold dispatch at hd
          rwa [if_pos hkw] at hd
        have hcurlt : p.current_stage < p.stages.length := by omega
        have hget : p.stages.get? p.current_stage =
            some (p.stages.get ⟨p.current_stage, hcurlt⟩) := List.get?_eq_get hcurlt
        have hcurne : p.curStage.instructions ≠ [] := by
          have : p.curStage = p.stages.get ⟨p.current_stage, hcurlt⟩ :=
            getD_lt _ _ _ hcurlt
          rw [this]
          exact hlast _ hget
        obtain ⟨hstg, hcur2⟩ := parse_from_push hfrom hcurne
        have hfresh : (Stage.new (stageNameOf args)).add_instruction
            (.From (fromImage args) none) =
            ⟨stageNameOf args, some (fromImage args), [.From (fromImage args) none]⟩ := rfl
        have hc2 : pm.current_stage + 1 = pm.stages.length := by
          rw [hstg, hcur2]; simp
        have hl2 : ∀ st, pm.stages.get? pm.current_stage = some st →
            st.instructions ≠ [] := by
          intro st hs
          rw [hstg, hcur2, List.get?_concat_length] at hs
          rw [hfresh] at hs
          cases hs
          simp
        obtain ⟨hlen, hmap⟩ := ih h hc2 hl2
        have hself : isFROMpair (kw, args) = true := by
          simp [isFROMpair, hkw]
        constructor
        · rw [hlen, hstg, countFROM_cons, hself]
          simp
          omega
        · rw [hmap, hstg, fromImages_cons, hself, hfresh]
          simp
      · obtain ⟨ins, hins, rfl⟩ := dispatch_ok_shape hkw hd
        have hc2 : (p.addIns ins).current_stage + 1 = (p.addIns ins).stages.length := by
          simp only [RockerfileParser.addIns, RockerfileParser.modifyCur]
          rw [listModify_length]
          exact hcur
        have hl2 : ∀ st, (p.addIns ins).stages.get? (p.addIns ins).current_stage =
            some st → st.instructions ≠ [] := by
          intro st hs
          simp only [RockerfileParser.addIns, RockerfileParser.modifyCur] at hs
          rw [listModify_get?_self] at hs
          rcases hq : p.stages.get? p.current_stage with _ | st0 <;> rw [hq] at hs
          · simp at hs
          · simp only [Option.map_some'] at hs
            cases hs
            rw [add_instruction_instructions]
            simp
        obtain ⟨hlen, hmap⟩ := ih h hc2 hl2
        have hself : isFROMpair (kw, args) = false := by
          simp [isFROMpair, hkw]
        constructor
        · rw [hlen, countFROM_cons, hself]
          simp only [RockerfileParser.addIns, RockerfileParser.modifyCur, listModify_length]
          simp
        · rw [hmap, fromImages_cons, hself]
          simp only [RockerfileParser.addIns, RockerfileParser.modifyCur]
          rw [map_listModify _ _ _ _ (fun x => add_instruction_base x ins hins)]
          simp

/-- C1 (amended): for every input whose first logical instruction line is
a FROM, a successful parse returns exactly as many stages as there are
FROM logical lines, and the i-th stage's base image is the image of the
i-th FROM line in input order.  (Without the leading-FROM restriction the
claim fails: instructions before the first FROM populate a bootstrap
stage of their own.) -/
theorem C1_stage_count (content : Str) (stages : List Stage)
    (kw args : Str) (rest : List (Str × Str))
    (hok : parse_content content = .ok stages)
    (hpairs : logicalPairs (preprocess content) = (kw, args) :: rest)
    (hkw : upper kw = kwFROM) :
    stages.length = countFROM (logicalPairs (preprocess content)) ∧
    stages.map (fun st => st.base_image) =
      (fromImages (logicalPairs (preprocess content))).map some := by
  obtain ⟨p2, hrun, rfl⟩ := parse_content_ok hok
  rw [hpairs] at hrun
  unfold runPairs at hrun
  rcases hd : dispatch RockerfileParser.new kw args with e | pm <;> rw [hd] at hrun
  · simp at hrun
  · have hfrom : parse_from RockerfileParser.new args = .ok pm := by
      unfold dispatch at hd
      rwa [if_pos hkw] at hd
    have hpm : pm = ⟨[⟨stageNameOf args, some (fromImage args),
        [.From (fromImage args) none]⟩], 0⟩ := by
      rw [parse_from_ok hfrom, if_neg (by intro hc; exact hc rfl)]
      rfl
    subst hpm
    obtain ⟨hlen, hmap⟩ := runPairs_stage_count hrun (by simp)
      (by intro st hs; cases hs; simp)
    have hself : isFROMpair (kw, args) = true := by simp [isFROMpair, hkw]
    rw [hpairs, countFROM_cons, fromImages_cons, hself]
    constructor
    · rw [hlen]; simp
    · rw [hmap]; simp

/-- C1 counterexample: `RUN x` followed by `FROM a` contains exactly one
FROM instruction yet parses to two stages, because the leading RUN
populates the bootstrap stage. -/
theorem C1_counterexample :
    parse_content ("RUN x\nFROM a".toList) =
      .ok [⟨none, none, [.Run ("x".toList)]⟩,
           ⟨none, some ("a".toList), [.From ("a".toList) none]⟩] ∧
    countFROM (logicalPairs (preprocess ("RUN x\nFROM a".toList))) = 1 :=
  ⟨by decide, by decide⟩

/-- Closed instantiation of `C1_stage_count` on the two-FROM input
`FROM a` / `FROM b`. -/
theorem C1_witness :
    ([⟨none, some ("a".toList), [Instruction.From ("a".toList) none]⟩,
      ⟨none, some ("b".toList), [Instruction.From ("b".toList) none]⟩] : List Stage).length =
      countFROM (logicalPairs (preprocess ("FROM a\nFROM b".toList))) ∧
    ([⟨none, some ("a".toList), [Instruction.From ("a".toList) none]⟩,
      ⟨none, some ("b".toList), [Instruction.From ("b".toList) none]⟩] : List Stage).map
        (fun st => st.base_image) =
      (fromImages (logicalPairs (preprocess ("FROM a\nFROM b".toList)))).map some :=
  C1_stage_count ("FROM a\nFROM b".toList) _ ("FROM".toList) ("a".toList)
    [(("FROM".toList), ("b".toList))] (by decide) (by decide) (by decide)

/-- Kinds of leading COPY options. -/
inductive OptKind where
  | fromOpt
  | chownOpt
  | chmodOpt
deriving DecidableEq

/-- Text of one leading COPY option token. -/
def renderTok : OptKind × Str → Str
  | (.fromOpt, v) => optFROM ++ v
  | (.chownOpt, v) => optCHOWN ++ v
  | (.chmodOpt, v) => optCHMOD ++ v

/-- Effect of one option token on the `(from, chown, chmod)` state of the
option loop. -/
def updOpt (s : Option Str × Option Str × Option Str) (pr : OptKind × Str) :
    Option Str × Option Str × Option Str :=
  match pr.1 with
  | .fromOpt => (some pr.2, s.2.1, s.2.2)
  | .chownOpt => (s.1, some pr.2, s.2.2)
  | .chmodOpt => (s.1, s.2.1, some pr.2)

/-- Canonical order of an option subset. -/
def optPairs (f c m : Option Str) : List (OptKind × Str) :=
  (f.map (fun v => ((OptKind.fromOpt), v))).toList ++
  (c.map (fun v => ((OptKind.chownOpt), v))).toList ++
  (m.map (fun v => ((OptKind.chmodOpt), v))).toList

/-- Tokens joined by single spaces. -/
def joinSpace : List Str → Str
  | [] => []
  | [t] => t
  | t :: u :: rest => t ++ ' ' :: joinSpace (u :: rest)

/-- First (overwriting) value of a kind in an option pair list. -/
def lookupKind (k : OptKind) (ps : List (OptKind × Str)) : Option Str :=
  (ps.find? (fun pr => pr.1 == k)).map (fun pr => pr.2)

/-- Left-biased choice used to describe the fold of `updOpt`. -/
def orDefault (o : Option Str) (d : Option Str) : Option Str :=
  match o with
  | some v => some v
  | none => d

lemma joinSpace_cons (t : Str) (l : List Str) (h : l ≠ []) :
    joinSpace (t :: l) = t ++ ' ' :: joinSpace l := by
  cases l with
  | nil => exact absurd rfl h
  | cons u rest => rfl

lemma dropWhile_length_le (p : α → Bool) (l : List α) :
    (l.dropWhile p).length ≤ l.length := by
  induction l with
  | nil => simp
  | cons a t ih =>
    rw [List.dropWhile_cons]
    split
    · exact ih.trans (by simp)
    · simp

lemma trimLeft_of_trim {R : Str} (h : trim R = R) : trimLeft R = R := by
  have h1 : (trimLeft R).length ≤ R.length := dropWhile_length_le _ _
  have h2 : (trim R).length ≤ (trimLeft R).length := by
    rw [trim, trimRight]
    calc ((trimLeft R).reverse.dropWhile isWS).reverse.length
        = ((trimLeft R).reverse.dropWhile isWS).length := by rw [List.length_reverse]
      _ ≤ (trimLeft R).reverse.length := dropWhile_length_le _ _
      _ = (trimLeft R).length := by rw [List.length_reverse]
  have hlen : (trimLeft R).length = R.length := by
    rw [h] at h2
    omega
  exact (List.IsSuffix.sublist (List.dropWhile_suffix _)).eq_of_length hlen

lemma trimRight_of_trim {R : Str} (h : trim R = R) : trimRight R = R := by
  have h0 := h
  rw [trim, trimLeft_of_trim h0] at h
  exact h

lemma head_not_ws_of_trim {R : Str} (h : trim R = R) :
    ∀ c, R.head? = some c → isWS c = false := by
  intro c hc
  by_contra hws
  simp only [Bool.not_eq_false] at hws
  have hL := trimLeft_of_trim h
  cases R with
  | nil => simp at hc
  | cons a t =>
    simp only [List.head?_cons, Option.some.injEq] at hc
    subst hc
    rw [trimLeft, List.dropWhile_cons, if_pos hws] at hL
    have hle := dropWhile_length_le isWS t
    rw [hL] at hle
    simp at hle

lemma last_not_ws_of_trim {R : Str} (h : trim R = R) :
    ∀ c, R.getLast? = some c → isWS c = false := by
  intro c hc
  have hRt := trimRight_of_trim h
  have hrev : List.dropWhile isWS R.reverse = R.reverse := by
    have hcg := congrArg List.reverse hRt
    rw [trimRight, List.reverse_reverse] at hcg
    exact hcg
  cases hr : R.reverse with
  | nil =>
    rw [← List.head?_reverse, hr] at hc
    simp at hc
  | cons a t =>
    have hac : a = c := by
      rw [← List.head?_reverse, hr] at hc
      simpa using hc
    by_contra hws
    simp only [Bool.not_eq_false] at hws
    rw [hr, List.dropWhile_cons, hac, if_pos hws] at hrev
    have hle := dropWhile_length_le isWS t
    rw [hrev] at hle
    simp at hle

lemma trimLeft_eq_self {s : Str} (h : ∀ c, s.head? = some c → isWS c = false) :
    trimLeft s = s := by
  cases s with
  | nil => rfl
  | cons a t =>
    rw [trimLeft, List.dropWhile_cons, if_neg (by rw [h a rfl]; simp)]

lemma trimRight_eq_self {s : Str} (h : ∀ c, s.getLast? = some c → isWS c = false) :
    trimRight s = s := by
  have hdw : s.reverse.dropWhile isWS = s.reverse := by
    cases hrev : s.reverse with
    | nil => rfl
    | cons a t =>
      have ha : s.getLast? = some a := by
        rw [← List.head?_reverse, hrev]
        rfl
      rw [List.dropWhile_cons, if_neg (by rw [h a ha]; simp)]
  rw [trimRight, hdw, List.reverse_reverse]

lemma trim_eq_self {s : Str} (h1 : ∀ c, s.head? = some c → isWS c = false)
    (h2 : ∀ c, s.getLast? = some c → isWS c = false) : trim s = s := by
  rw [trim, trimLeft_eq_self h1, trimRight_eq_self h2]

lemma all_head {p : Char → Bool} {s : Str} (h : s.all p = true) :
    ∀ c, s.head? = some c → p c = true := by
  intro c hc
  cases s with
  | nil => simp at hc
  | cons a t =>
    simp only [List.head?_cons, Option.some.injEq] at hc
    subst hc
    simp only [List.all_cons, Bool.and_eq_true] at h
    exact h.1

lemma all_getLast {p : Char → Bool} {s : Str} (h : s.all p = true) :
    ∀ c, s.getLast? = some c → p c = true := by
  intro c hc
  obtain ⟨hne, heq⟩ := List.mem_getLast?_eq_getLast (show c ∈ s.getLast? from hc)
  have hmem : c ∈ s := by
    rw [heq]
    exact List.getLast_mem hne
  exact (List.all_eq_true.mp h) c hmem

lemma trim_eq_self_of_noWS {s : Str} (h : s.all (fun c => !isWS c) = true) :
    trim s = s := by
  refine trim_eq_self ?_ ?_
  · intro c hc
    have := all_head h c hc
    simpa using this
  · intro c hc
    have := all_getLast h c hc
    simpa using this

/-- Whitespace-free strings, the shape of COPY option values. -/
def noWS (v : Str) : Bool := v.all (fun c => !isWS c)

lemma joinSpace_append_ne_nil (xs : List Str) (R : Str) (hR : R ≠ []) :
    joinSpace (xs ++ [R]) ≠ [] := by
  cases xs with
  | nil => simpa using hR
  | cons t rest =>
    rw [List.cons_append, joinSpace_cons _ _ (by simp)]
    simp

lemma joinSpace_getLast (xs : List Str) (R : Str) (hR : R ≠ []) :
    (joinSpace (xs ++ [R])).getLast? = R.getLast? := by
  induction xs with
  | nil => rfl
  | cons t rest ih =>
    rw [List.cons_append, joinSpace_cons _ _ (by simp)]
    rw [List.getLast?_append_of_ne_nil _ (by simp)]
    have hne := joinSpace_append_ne_nil rest R hR
    rw [show (' ' :: joinSpace (rest ++ [R])) = [' '] ++ joinSpace (rest ++ [R]) from rfl]
    rw [List.getLast?_append_of_ne_nil _ hne]
    exact ih

lemma strStartsWith_append_self (p x : Str) : strStartsWith p (p ++ x) = true := by
  induction p with
  | nil => rfl
  | cons a t ih => simp [strStartsWith, ih]

lemma splitn2Char_sep {tok tail : Str} (h : tok.all (fun c => !(c == ' ')) = true) :
    splitn2Char ' ' (tok ++ ' ' :: tail) = (tok, some tail) := by
  induction tok with
  | nil => simp [splitn2Char]
  | cons a t ih =>
    simp only [List.all_cons, Bool.and_eq_true] at h
    have ha : (a == ' ') = false := by
      have := h.1
      simpa using this
    rw [List.cons_append]
    simp [splitn2Char, ha, ih h.2]

lemma noSpace_of_noWS {v : Str} (h : noWS v = true) :
    v.all (fun c => !(c == ' ')) = true := by
  induction v with
  | nil => rfl
  | cons a t ih =>
    simp only [noWS, List.all_cons, Bool.and_eq_true] at h
    simp only [List.all_cons, Bool.and_eq_true]
    refine ⟨?_, ih h.2⟩
    by_cases hsp : a = ' '
    · subst hsp
      exact absurd h.1 (by decide)
    · simp [hsp]

lemma renderTok_noWS {k : OptKind} {v : Str} (h : noWS v = true) :
    noWS (renderTok (k, v)) = true := by
  cases k <;>
    simp only [renderTok, noWS, List.all_append, Bool.and_eq_true] <;>
    exact ⟨by decide, h⟩

/-- One iteration of the COPY leading-option loop: a well-formed option
token at the front is consumed, updating exactly the field its kind
names, and the loop continues on the rest of the text with one unit of
fuel spent. -/
lemma copyOptLoopF_step (fuel : Nat) (f c m : Option Str) (k : OptKind) (v : Str)
    (tailToks : List Str) (R : Str)
    (hv : noWS v = true)
    (htail : trim (joinSpace (tailToks ++ [R])) = joinSpace (tailToks ++ [R])) :
    copyOptLoopF (fuel + 1) f c m
        (joinSpace (renderTok (k, v) :: (tailToks ++ [R]))) =
      copyOptLoopF fuel (updOpt (f, c, m) (k, v)).1 (updOpt (f, c, m) (k, v)).2.1
        (updOpt (f, c, m) (k, v)).2.2 (joinSpace (tailToks ++ [R])) := by
  rw [joinSpace_cons _ _ (by simp)]
  have hwtok : noWS (renderTok (k, v)) = true := renderTok_noWS hv
  have hnosp := noSpace_of_noWS hwtok
  have htok : trim (renderTok (k, v)) = renderTok (k, v) :=
    trim_eq_self_of_noWS hwtok
  have hdd : strStartsWith ddOpt
      (renderTok (k, v) ++ ' ' :: joinSpace (tailToks ++ [R])) = true := by
    cases k <;> rfl
  simp only [copyOptLoopF]
  rw [if_pos hdd, splitn2Char_sep hnosp]
  cases k with
  | fromOpt =>
    simp only [renderTok] at htok ⊢
    rw [htok]
    rw [if_pos (strStartsWith_append_self optFROM v)]
    rw [show (optFROM ++ v).drop 7 = v from List.drop_left optFROM v, htail]
    rfl
  | chownOpt =>
    simp only [renderTok] at htok ⊢
    rw [htok]
    rw [if_neg (by rw [show strStartsWith optFROM (optCHOWN ++ v) = false from rfl]; simp)]
    rw [if_pos (strStartsWith_append_self optCHOWN v)]
    rw [show (optCHOWN ++ v).drop 8 = v from List.drop_left optCHOWN v, htail]
    rfl
  | chmodOpt =>
    simp only [renderTok] at htok ⊢
    rw [htok]
    rw [if_neg (by rw [show strStartsWith optFROM (optCHMOD ++ v) = false from rfl]; simp)]
    rw [if_neg (by rw [show strStartsWith optCHOWN (optCHMOD ++ v) = false from rfl]; simp)]
    rw [if_pos (strStartsWith_append_self optCHMOD v)]
    rw [show (optCHMOD ++ v).drop 8 = v from List.drop_left optCHMOD v, htail]
    rfl

lemma renderTok_head (k : OptKind) (v : Str) : (renderTok (k, v)).head? = some '-' := by
  cases k <;> rfl

lemma head?_append_ne {a : Str} {x : Char} (b : Str) (h : a.head? = some x) :
    (a ++ b).head? = some x := by
  cases a with
  | nil => simp at h
  | cons y t => simpa using h

lemma trim_join_eq_self (ps : List (OptKind × Str)) (R : Str) (hR : R ≠ [])
    (hRt : trim R = R) (hwf : ∀ pr ∈ ps, noWS pr.2 = true) :
    trim (joinSpace (ps.map renderTok ++ [R])) = joinSpace (ps.map renderTok ++ [R]) := by
  refine trim_eq_self ?_ ?_
  · intro x hx
    cases ps with
    | nil => exact head_not_ws_of_trim hRt x hx
    | cons pr rest =>
      rw [List.map_cons, List.cons_append, joinSpace_cons _ _ (by simp),
        head?_append_ne _ (renderTok_head pr.1 pr.2)] at hx
      cases hx
      decide
  · intro x hx
    rw [joinSpace_getLast _ _ hR] at hx
    exact last_not_ws_of_trim hRt x hx

/-- Iterated form of `copyOptLoopF_step`: a block of well-formed option
tokens is folded into the option state, one fuel unit per token. -/
lemma copyOptLoopF_steps (ps : List (OptKind × Str)) (fuel : Nat)
    (f c m : Option Str) (R : Str)
    (hwf : ∀ pr ∈ ps, noWS pr.2 = true)
    (hR : R ≠ []) (hRt : trim R = R) :
    copyOptLoopF (ps.length + fuel) f c m (joinSpace (ps.map renderTok ++ [R])) =
      copyOptLoopF fuel (ps.foldl updOpt (f, c, m)).1 (ps.foldl updOpt (f, c, m)).2.1
        (ps.foldl updOpt (f, c, m)).2.2 R := by
  induction ps generalizing f c m with
  | nil =>
    simp only [List.length_nil, Nat.zero_add, List.map_nil, List.nil_append, List.foldl_nil]
    rfl
  | cons pr rest ih =>
    rcases pr with ⟨k, v⟩
    have hstep := copyOptLoopF_step (rest.length + fuel) f c m k v (rest.map renderTok) R
      (hwf (k, v) (by simp))
      (trim_join_eq_self rest R hR hRt (fun pr h => hwf pr (by simp [h])))
    have harith : ((k, v) :: rest).length + fuel = (rest.length + fuel) + 1 := by
      simp only [List.length_cons]
      omega
    rw [harith, List.map_cons, List.cons_append, hstep]
    rcases hupd : updOpt (f, c, m) (k, v) with ⟨f2, s2⟩
    rcases s2 with ⟨c2, m2⟩
    rw [List.foldl_cons, hupd]
    exact ih f2 c2 m2 (fun pr h => hwf pr (by simp [h]))

lemma lookupKind_cons_self (k : OptKind) (v : Str) (rest : List (OptKind × Str)) :
    lookupKind k ((k, v) :: rest) = some v := by
  unfold lookupKind
  rw [List.find?_cons_of_pos _ (by simp)]
  rfl

lemma lookupKind_cons_ne (k k' : OptKind) (v : Str) (rest : List (OptKind × Str))
    (h : k ≠ k') : lookupKind k' ((k, v) :: rest) = lookupKind k' rest := by
  unfold lookupKind
  rw [List.find?_cons_of_neg _ (by simp [h])]

lemma lookupKind_eq_none {k : OptKind} {rest : List (OptKind × Str)}
    (h : ∀ pr ∈ rest, pr.1 ≠ k) : lookupKind k rest = none := by
  unfold lookupKind
  rw [List.find?_eq_none.mpr]
  · rfl
  · intro x hx
    simp only [beq_iff_eq]
    exact h x hx

/-- The option loop's fold over a duplicate-free option list assigns each
field the value of its (unique) token, keeping the start value
otherwise. -/
lemma foldl_updOpt_eq (ps : List (OptKind × Str))
    (s : Option Str × Option Str × Option Str)
    (hnd : ps.Pairwise (fun a b => a.1 ≠ b.1)) :
    ps.foldl updOpt s =
      (orDefault (lookupKind .fromOpt ps) s.1,
       orDefault (lookupKind .chownOpt ps) s.2.1,
       orDefault (lookupKind .chmodOpt ps) s.2.2) := by
  induction ps generalizing s with
  | nil => simp [lookupKind, orDefault]
  | cons pr rest ih =>
    rcases pr with ⟨k, v⟩
    rw [List.pairwise_cons] at hnd
    have hnotin : ∀ pr' ∈ rest, pr'.1 ≠ k := by
      intro pr' h'
      exact (hnd.1 pr' h').symm
    rw [List.foldl_cons, ih (updOpt s (k, v)) hnd.2]
    cases k with
    | fromOpt =>
      rw [lookupKind_cons_self, lookupKind_cons_ne _ _ _ _ (by decide),
        lookupKind_cons_ne _ _ _ _ (by decide), lookupKind_eq_none hnotin]
      simp [updOpt, orDefault]
    | chownOpt =>
      rw [lookupKind_cons_self, lookupKind_cons_ne _ _ _ _ (by decide),
        lookupKind_cons_ne _ _ _ _ (by decide), lookupKind_eq_none hnotin]
      simp [updOpt, orDefault]
    | chmodOpt =>
      rw [lookupKind_cons_self, lookupKind_cons_ne _ _ _ _ (by decide),
        lookupKind_cons_ne _ _ _ _ (by decide), lookupKind_eq_none hnotin]
      simp [updOpt, orDefault]

lemma find?_unique {p : α → Bool} {l : List α} {a : α} (ha : a ∈ l) (hpa : p a = true)
    (huniq : ∀ x ∈ l, p x = true → x = a) : l.find? p = some a := by
  induction l with
  | nil => simp at ha
  | cons b t ih =>
    by_cases hb : p b = true
    · rw [List.find?_cons_of_pos _ hb, huniq b (by simp) hb]
    · rw [List.find?_cons_of_neg _ hb]
      refine ih ?_ ?_
      · rcases List.mem_cons.mp ha with h | h
        · subst h
          exact absurd hpa hb
        · exact h
      · intro x hx hpx
        exact huniq x (by simp [hx]) hpx

lemma lookupKind_perm {ps qs : List (OptKind × Str)} (k : OptKind)
    (hperm : ps.Perm qs) (hnd : qs.Pairwise (fun a b => a.1 ≠ b.1)) :
    lookupKind k ps = lookupKind k qs := by
  rcases hq : qs.find? (fun pr => pr.1 == k) with _ | pr
  · have hnone := List.find?_eq_none.mp hq
    have hps : ps.find? (fun pr => pr.1 == k) = none :=
      List.find?_eq_none.mpr (fun x hx => hnone x (hperm.mem_iff.mp hx))
    simp [lookupKind, hq, hps]
  · have hpr0 := List.find?_some hq
    have hpr : (pr.1 == k) = true := by simpa using hpr0
    have hmemq : pr ∈ qs := List.mem_of_find?_eq_some hq
    have hsym : Symmetric (fun a b : OptKind × Str => a.1 ≠ b.1) :=
      fun a b h => h.symm
    have huniqq : ∀ x ∈ qs, (x.1 == k) = true → x = pr := by
      intro x hx hxk
      by_contra hne
      have hk1 : x.1 = k := by simpa using hxk
      have hk2 : pr.1 = k := by simpa using hpr
      exact (List.Pairwise.forall hsym hnd hx hmemq hne) (hk1.trans hk2.symm)
    have hps := find?_unique (hperm.mem_iff.mpr hmemq) hpr
      (fun x hx hxk => huniqq x (hperm.mem_iff.mp hx) hxk)
    simp [lookupKind, hq, hps]

lemma optPairs_pairwise (f c m : Option Str) :
    (optPairs f c m).Pairwise (fun a b => a.1 ≠ b.1) := by
  cases f <;> cases c <;> cases m <;>
    simp [optPairs, List.pairwise_cons] <;> try decide

lemma joinSpace_length_ge (xs : List Str) (R : Str) :
    xs.length ≤ (joinSpace (xs ++ [R])).length := by
  induction xs with
  | nil => simp
  | cons t rest ih =>
    rw [List.cons_append, joinSpace_cons _ _ (by simp)]
    simp only [List.length_cons, List.length_append, List.length_cons]
    omega

lemma joinSpace_length_sum (l : List (OptKind × Str)) (R : Str) :
    (joinSpace (l.map renderTok ++ [R])).length =
      (l.map (fun pr => (renderTok pr).length + 1)).sum + R.length := by
  induction l with
  | nil => simp [joinSpace]
  | cons t rest ih =>
    rw [List.map_cons, List.cons_append, joinSpace_cons _ _ (by simp)]
    simp only [List.length_append, List.length_cons, List.map_cons, List.sum_cons, ih]
    omega

lemma joinSpace_length_perm {ps qs : List (OptKind × Str)} (hperm : ps.Perm qs) (R : Str) :
    (joinSpace (ps.map renderTok ++ [R])).length =
      (joinSpace (qs.map renderTok ++ [R])).length := by
  rw [joinSpace_length_sum, joinSpace_length_sum,
    (hperm.map (fun pr => (renderTok pr).length + 1)).sum_eq]

/-- C5: the leading options of COPY are recognized in any subset and any
order — the parse of an option block that is a permutation of the
canonical `--from= --chown= --chmod=` subset equals the parse of the
canonical order — and concretely the two option orders of the claim give
equal results, a `Copy` with `from = Some "builder"` and
`chown = Some "1000:1000"`. -/
theorem C5_copy_options :
    (∀ (p : RockerfileParser) (f c m : Option Str) (ps : List (OptKind × Str)) (R : Str),
      (∀ pr ∈ optPairs f c m, noWS pr.2 = true) →
      ps.Perm (optPairs f c m) →
      R ≠ [] → trim R = R →
      parse_copy p (joinSpace (ps.map renderTok ++ [R])) =
        parse_copy p (joinSpace ((optPairs f c m).map renderTok ++ [R]))) ∧
    parse_content ("COPY --chown=1000:1000 --from=builder /app /app".toList) =
      parse_content ("COPY --from=builder --chown=1000:1000 /app /app".toList) ∧
    parse_content ("COPY --from=builder --chown=1000:1000 /app /app".toList) =
      .ok [⟨none, none, [.Copy [("/app".toList)] ("/app".toList)
            (some ("builder".toList)) (some ("1000:1000".toList)) none]⟩] := by
  refine ⟨?_, by decide, by decide⟩
  intro p f c m ps R hwf hperm hR hRt
  have hwfps : ∀ pr ∈ ps, noWS pr.2 = true :=
    fun pr h => hwf pr (hperm.mem_iff.mp h)
  have hLeq : (joinSpace (ps.map renderTok ++ [R])).length =
      (joinSpace ((optPairs f c m).map renderTok ++ [R])).length :=
    joinSpace_length_perm hperm R
  have hnle : ps.length ≤ (joinSpace (ps.map renderTok ++ [R])).length := by
    have hge := joinSpace_length_ge (ps.map renderTok) R
    simpa using hge
  obtain ⟨fuel, hfuel⟩ : ∃ fu, (joinSpace (ps.map renderTok ++ [R])).length + 1 =
      ps.length + fu :=
    ⟨(joinSpace (ps.map renderTok ++ [R])).length + 1 - ps.length, by omega⟩
  have hfuel2 : (joinSpace ((optPairs f c m).map renderTok ++ [R])).length + 1 =
      (optPairs f c m).length + fuel := by
    rw [← hLeq, ← hperm.length_eq]
    exact hfuel
  have hstate : ps.foldl updOpt (none, none, none) =
      (optPairs f c m).foldl updOpt (none, none, none) := by
    have hndc : (optPairs f c m).Pairwise (fun a b => a.1 ≠ b.1) :=
      optPairs_pairwise f c m
    have hndp : ps.Pairwise (fun a b => a.1 ≠ b.1) :=
      (hperm.pairwise_iff (fun h => h.symm)).mpr hndc
    rw [foldl_updOpt_eq _ _ hndp, foldl_updOpt_eq _ _ hndc,
      lookupKind_perm _ hperm hndc, lookupKind_perm _ hperm hndc,
      lookupKind_perm _ hperm hndc]
  unfold parse_copy
  rw [hfuel, hfuel2,
    copyOptLoopF_steps ps fuel none none none R hwfps hR hRt,
    copyOptLoopF_steps (optPairs f c m) fuel none none none R hwf hR hRt,
    hstate]

/-- Closed instantiation of the universal part of `C5_copy_options` at
the two-option block `--chown=1000:1000 --from=builder` against its
canonical order, over the remainder `/app /app`. -/
theorem C5_witness :
    parse_copy RockerfileParser.new
        (joinSpace ([((OptKind.chownOpt), ("1000:1000".toList)),
          ((OptKind.fromOpt), ("builder".toList))].map renderTok ++
          [("/app /app".toList)])) =
      parse_copy RockerfileParser.new
        (joinSpace ((optPairs (some ("builder".toList)) (some ("1000:1000".toList))
          none).map renderTok ++ [("/app /app".toList)])) :=
  C5_copy_options.1 RockerfileParser.new (some ("builder".toList))
    (some ("1000:1000".toList)) none
    [((OptKind.chownOpt), ("1000:1000".toList)), ((OptKind.fromOpt), ("builder".toList))]
    ("/app /app".toList) (by decide) (by decide) (by decide) (by decide)

/-- Closed instantiation of the universal part of `C10_stage_invariants`
on the parse of `RUN x`. -/
theorem C10_witness :
    ([⟨none, none, [Instruction.Run ("x".toList)]⟩] : List Stage) ≠ [] ∧
    ∀ st ∈ ([⟨none, none, [Instruction.Run ("x".toList)]⟩] : List Stage),
      (st.instructions.filter (fun i => i.is_from)).length ≤ 1 ∧
      ∀ i ins, st.instructions.get? i = some ins → ins.is_from = true → i = 0 :=
  C10_stage_invariants.1 ("RUN x".toList) _ (by decide)

end Rocker
